import Mathlib

set_option maxHeartbeats 1000000

/-!
Verification of the ΣVault dimensional scattering core of PhantomMesh-VPN
(`src/phantom-mesh-vpn/src/security_layer/sigma_vault.rs`).

The Rust code is shallowly embedded: bytes are `Nat` (values < 256 where they
come from real byte material), byte buffers are `List Nat`, `u64`/`usize`
arithmetic is `Nat` with explicit `% 2 ^ 64` where the source can wrap, maps
are insertion-ordered association lists, and the ChaCha20-Poly1305 cipher of
`CryptoDimensionHandler` — an external crate — is an explicit function
parameter (`dec`) of the gather pipeline, so every theorem quantifying over it
covers every possible cipher behaviour.
-/

/-- Modulus of Rust `usize` on the 64-bit targets this crate builds for. -/
def usizeSize : Nat := 2 ^ 64

/-- `DimensionalCoordinate`: the 7-dimensional coordinate.  Every field is a
`u32` that `from_packet_hash` produces as a byte reduced mod 128, hence values
fit far below any wrap-around in the operations modelled here. -/
structure DimensionalCoordinate where
  spatial : Nat
  temporal : Nat
  frequency : Nat
  protocol : Nat
  fragmentation : Nat
  cryptographic : Nat
  metadata : Nat
  deriving DecidableEq, Repr

/-- `cantor_pair` as written in the source (`(x + y) * (x + y + 1) / 2 + y`),
read over unbounded naturals. -/
def cantor_pair (x y : Nat) : Nat :=
  (x + y) * (x + y + 1) / 2 + y

/-- `cantor_pair` under Rust release-mode `usize` arithmetic: each addition and
multiplication wraps modulo `2 ^ 64`; the division by 2 acts on the wrapped
product, exactly as the machine computes it. -/
def cantor_pair_wrap (x y : Nat) : Nat :=
  let a := (x + y) % usizeSize
  let b := (a + 1) % usizeSize
  (a * b % usizeSize / 2 + y) % usizeSize

/-- `DimensionalCoordinate::to_linear_index` read over unbounded naturals:
the iterated Cantor pairing of the seven fields in source order. -/
def to_linear_index_nat (c : DimensionalCoordinate) : Nat :=
  cantor_pair (cantor_pair (cantor_pair (cantor_pair (cantor_pair
    (cantor_pair c.spatial c.temporal) c.frequency) c.protocol)
    c.fragmentation) c.cryptographic) c.metadata

/-- `DimensionalCoordinate::to_linear_index` with the `usize` arithmetic the
machine actually performs (wrap-around modulo `2 ^ 64`). -/
def to_linear_index (c : DimensionalCoordinate) : Nat :=
  cantor_pair_wrap (cantor_pair_wrap (cantor_pair_wrap (cantor_pair_wrap
    (cantor_pair_wrap (cantor_pair_wrap c.spatial c.temporal) c.frequency)
    c.protocol) c.fragmentation) c.cryptographic) c.metadata

/-- `DimensionalFragment`: a packet fragment with its dimensional metadata. -/
structure DimensionalFragment where
  coordinate : DimensionalCoordinate
  data : List Nat
  sequence_id : Nat
  fragment_id : Nat
  total_fragments : Nat
  timestamp : Nat
  ttl : Nat
  deriving DecidableEq, Repr

/-- Little-endian byte decomposition of a `u64` (`u64::to_le_bytes`). -/
def u64le (n : Nat) : List Nat :=
  (List.range 8).map fun i => n / 2 ^ (8 * i) % 256

/-- Little-endian byte decomposition of a `u32` (`u32::to_le_bytes`). -/
def u32le (n : Nat) : List Nat :=
  (List.range 4).map fun i => n / 2 ^ (8 * i) % 256

/-- The 12-byte AEAD nonce `CryptoDimensionHandler::encrypt_fragment` builds:
bytes 0..8 are the little-endian `nonce_seed` (a `u64`), bytes 8..12 the
little-endian `coordinate.cryptographic` (a `u32`). -/
def nonce_bytes (nonce_seed : Nat) (c : DimensionalCoordinate) : List Nat :=
  u64le nonce_seed ++ u32le c.cryptographic

/-- The nonce under which `SigmaVault::scatter_packet` encrypts fragment number
`fragment_id` of the packet with sequence number `sequence_id`: the call is
`crypto.encrypt_fragment(&fragment.data, &coordinate, fragment.sequence_id)`,
so only the sequence id and the coordinate reach the nonce — the fragment
index does not enter the derivation at all. -/
def scatter_fragment_nonce (sequence_id : Nat) (c : DimensionalCoordinate)
    (fragment_id : Nat) : List Nat :=
  nonce_bytes sequence_id c

/-- `FragmentationEngine::fragment_packet`'s loop: one recursive step per
fragment index `i`, carrying the running `start` offset; `n` counts the
remaining iterations of `for i in 0..fragment_count`. -/
def fragmentSteps (overlapSize : Nat) (packet : List Nat) (baseSize rem : Nat) :
    Nat → Nat → Nat → List (List Nat)
  | 0, _, _ => []
  | n + 1, i, start =>
    let size := baseSize + (if i < rem then 1 else 0)
    let overlap := if 0 < i then overlapSize else 0
    let actualStart := if overlap ≤ start then start - overlap else 0
    let actualSize := min (size + overlap) (packet.length - actualStart)
    ((packet.drop actualStart).take actualSize) ::
      fragmentSteps overlapSize packet baseSize rem n (i + 1) (start + size)

/-- `FragmentationEngine::fragment_packet`: split `packet` into
`(c.fragmentation % 8) + 1` overlapping slices. -/
def fragment_packet (overlapSize : Nat) (packet : List Nat)
    (c : DimensionalCoordinate) : List (List Nat) :=
  let fragmentCount := c.fragmentation % 8 + 1
  fragmentSteps overlapSize packet (packet.length / fragmentCount)
    (packet.length % fragmentCount) fragmentCount 0 0

/-- The merge loop of `FragmentationEngine::reassemble_fragments`: for each
further fragment, take the last `overlapSize` bytes of the running result
(`saturating_sub` is `Nat` subtraction); if the fragment starts with them the
duplicated prefix is skipped, otherwise the fragment is appended verbatim. -/
def reassembleFold (overlapSize : Nat) (result : List Nat) :
    List (List Nat) → List Nat
  | [] => result
  | frag :: rest =>
    let overlapStart := result.length - overlapSize
    let overlap := result.drop overlapStart
    if overlap.isPrefixOf frag then
      reassembleFold overlapSize (result ++ frag.drop overlap.length) rest
    else
      reassembleFold overlapSize (result ++ frag) rest

/-- `FragmentationEngine::reassemble_fragments`: `none` models the
`Err("No fragments to reassemble")` arm on an empty input. -/
def reassemble_fragments (overlapSize : Nat) (fragments : List (List Nat)) :
    Option (List Nat) :=
  match fragments with
  | [] => none
  | f :: rest => some (reassembleFold overlapSize f rest)

/-- Arithmetic core of Cantor-pairing injectivity: from the doubled equation
and the bounds on the second components, both components agree. -/
theorem cantor_sum_eq {s y s2 y2 : Nat} (hy : y ≤ s) (hy2 : y2 ≤ s2)
    (h : s * (s + 1) + 2 * y = s2 * (s2 + 1) + 2 * y2) : s = s2 ∧ y = y2 := by
  rcases Nat.lt_trichotomy s s2 with hlt | heq | hgt
  · exfalso
    have h1 : (s + 1) * (s + 2) ≤ s2 * (s2 + 1) :=
      Nat.mul_le_mul (by omega) (by omega)
    nlinarith
  · refine ⟨heq, ?_⟩
    subst heq
    omega
  · exfalso
    have h1 : (s2 + 1) * (s2 + 2) ≤ s * (s + 1) :=
      Nat.mul_le_mul (by omega) (by omega)
    nlinarith

/-- Doubling `cantor_pair` clears the division by two. -/
theorem two_mul_cantor_pair (a b : Nat) :
    2 * cantor_pair a b = (a + b) * (a + b + 1) + 2 * b := by
  unfold cantor_pair
  rw [Nat.mul_add]
  congr 1
  exact Nat.mul_div_cancel' (Nat.even_mul_succ_self (a + b)).two_dvd

/-- The Cantor pairing of the source, read over unbounded naturals, is
injective in both arguments. -/
theorem cantor_pair_inj {x y x2 y2 : Nat}
    (h : cantor_pair x y = cantor_pair x2 y2) : x = x2 ∧ y = y2 := by
  have h2 : (x + y) * (x + y + 1) + 2 * y = (x2 + y2) * (x2 + y2 + 1) + 2 * y2 := by
    rw [← two_mul_cantor_pair, ← two_mul_cantor_pair, h]
  have hs := cantor_sum_eq (Nat.le_add_left y x) (Nat.le_add_left y2 x2) h2
  omega

/-- Claim C9 (amended): `to_linear_index`, read as the iterated Cantor pairing
over unbounded integers, is injective on coordinates: distinct coordinates
always produce distinct results. -/
theorem to_linear_index_nat_injective (c c2 : DimensionalCoordinate)
    (h : to_linear_index_nat c = to_linear_index_nat c2) : c = c2 := by
  unfold to_linear_index_nat at h
  obtain ⟨h, hm⟩ := cantor_pair_inj h
  obtain ⟨h, hc⟩ := cantor_pair_inj h
  obtain ⟨h, hg⟩ := cantor_pair_inj h
  obtain ⟨h, hp⟩ := cantor_pair_inj h
  obtain ⟨h, hq⟩ := cantor_pair_inj h
  obtain ⟨hs, ht⟩ := cantor_pair_inj h
  cases c
  cases c2
  simp_all

/-- Witness for C9's amended theorem at a concrete coordinate. -/
theorem to_linear_index_nat_injective_witness :
    (⟨1, 2, 3, 4, 5, 6, 7⟩ : DimensionalCoordinate) = ⟨1, 2, 3, 4, 5, 6, 7⟩ :=
  to_linear_index_nat_injective ⟨1, 2, 3, 4, 5, 6, 7⟩ ⟨1, 2, 3, 4, 5, 6, 7⟩ rfl

/-- First collision witness coordinate (all fields in `[0,127]`). -/
def coordCollA : DimensionalCoordinate := ⟨23, 54, 70, 73, 59, 99, 38⟩

/-- Second collision witness coordinate (all fields in `[0,127]`). -/
def coordCollB : DimensionalCoordinate := ⟨84, 19, 79, 75, 6, 54, 124⟩

/-- Claim C9 (counterexample): under the wrap-around `usize` arithmetic the
machine performs, `to_linear_index` is not injective: these two distinct
coordinates, every field in `[0,127]`, map to the same index
`3996934154575388693`, so the iterated pairing neither stays within `2 ^ 64`
nor remains injective modulo `2 ^ 64`. -/
theorem to_linear_index_wrap_collision :
    coordCollA ≠ coordCollB ∧
      to_linear_index coordCollA = to_linear_index coordCollB := by
  constructor
  · decide
  · decide

/-- The unbounded computation of `to_linear_index` leaves `usize` range even on
in-range coordinates, so the machine computation does wrap. -/
theorem to_linear_index_nat_overflows :
    usizeSize < to_linear_index_nat ⟨127, 127, 127, 127, 127, 127, 127⟩ := by
  decide

/-- Claim C1: the AEAD nonce `scatter_packet` uses never depends on the
fragment index, so the two distinct fragments of any multi-fragment packet are
encrypted under the very same 12-byte nonce.  Concretely: the two-byte packet
`[0, 1]` under a coordinate with `fragmentation % 8 = 1` is split into exactly
2 fragments, and fragments 0 and 1 of sequence 5 get identical nonces —
refuting uniqueness over distinct `(sequence_id, fragment_index)` pairs. -/
theorem nonce_reuse_across_fragments :
    (fragment_packet 50 [0, 1] ⟨0, 0, 0, 0, 1, 7, 0⟩).length = 2 ∧
      (0 : Nat) ≠ 1 ∧
      scatter_fragment_nonce 5 ⟨0, 0, 0, 0, 1, 7, 0⟩ 0 =
        scatter_fragment_nonce 5 ⟨0, 0, 0, 0, 1, 7, 0⟩ 1 := by
  refine ⟨by decide, by decide, rfl⟩

/-- `PaddingStrategy` of `MetadataManipulator`. -/
structure PaddingStrategy where
  min_padding : Nat
  max_padding : Nat
  pattern : List Nat
  deriving DecidableEq, Repr

/-- The three strategies `MetadataManipulator::new` installs: zero padding of
length 0..100, the 4-byte `FF 00 FF 00` motif of length 10..200, and a fixed
50 bytes of `0xAA`. -/
def padding_strategies : List PaddingStrategy :=
  [⟨0, 100, [0x00]⟩, ⟨10, 200, [0xFF, 0x00, 0xFF, 0x00]⟩, ⟨50, 50, [0xAA]⟩]

/-- Strategy selected for a coordinate: index `metadata % 3` (always in
bounds, the default is never reached). -/
def strategyFor (c : DimensionalCoordinate) : PaddingStrategy :=
  padding_strategies.getD (c.metadata % padding_strategies.length) ⟨0, 0, [0]⟩

/-- The padding length both `manipulate_metadata` and the stripping code in
`gather_packets` compute:
`strategy.min_padding + metadata % (max_padding - min_padding + 1)`. -/
def paddingSize (c : DimensionalCoordinate) : Nat :=
  let s := strategyFor c
  s.min_padding + c.metadata % (s.max_padding - s.min_padding + 1)

/-- The padding block: `pattern[i % pattern.len()]` for `i in 0..padding_size`. -/
def paddingBytes (c : DimensionalCoordinate) : List Nat :=
  let s := strategyFor c
  (List.range (paddingSize c)).map fun i => s.pattern.getD (i % s.pattern.length) 0

/-- `bincode::serialize` of a `DimensionalCoordinate` (bincode 1.x default
configuration: the seven `u32` fields in declaration order, fixed-width
little-endian). -/
def coordBytes (c : DimensionalCoordinate) : List Nat :=
  u32le c.spatial ++ u32le c.temporal ++ u32le c.frequency ++ u32le c.protocol ++
    u32le c.fragmentation ++ u32le c.cryptographic ++ u32le c.metadata

/-- `MetadataManipulator::manipulate_metadata`: append the padding block, then
the serialized coordinate with every byte XOR-masked by `0x5A`. -/
def manipulate_metadata (packet : List Nat) (c : DimensionalCoordinate) :
    List Nat :=
  packet ++ paddingBytes c ++ (coordBytes c).map fun b => b ^^^ 0x5A

/-- The trailer size the stripping code in `gather_packets` recomputes from
the fragment coordinate: `padding_size + coord_bytes.len()`. -/
def metadataSize (c : DimensionalCoordinate) : Nat :=
  paddingSize c + (coordBytes c).length

/-- The skin-stripping step of `SigmaVault::gather_packets`: keep
`data[..data.len().saturating_sub(metadata_size)]`, using only the
coordinate. -/
def strip_skin (data : List Nat) (c : DimensionalCoordinate) : List Nat :=
  data.take (data.length - metadataSize c)

/-- Claim C8: the metadata skin round-trips — for every encrypted fragment
`F` and every coordinate `c`, stripping the skin (whose padding length is the
deterministic function `paddingSize` of `c`) recovers `F` exactly, and
`manipulate_metadata` is a function of `(F, c)` alone, hence byte-identical
for identical coordinates. -/
theorem metadata_skin_roundtrip (F : List Nat) (c : DimensionalCoordinate) :
    strip_skin (manipulate_metadata F c) c = F := by
  unfold strip_skin manipulate_metadata metadataSize
  have hpad : (paddingBytes c).length = paddingSize c := by
    simp [paddingBytes]
  have hxor : (((coordBytes c).map fun b => b ^^^ 0x5A)).length =
      (coordBytes c).length := by
    simp
  rw [List.append_assoc, List.length_append, List.length_append, hpad, hxor,
    Nat.add_sub_cancel]
  exact List.take_left F _

/-- Stable insertion of one element into a sorted list (ties keep the new,
originally earlier element first). -/
def insertSorted {α : Type} (le : α → α → Bool) (a : α) : List α → List α
  | [] => [a]
  | b :: t => if le a b then a :: b :: t else b :: insertSorted le a t

/-- Stable sort modelling Rust's stable `slice::sort_by_key`: straight
insertion sort, kept structurally recursive so that concrete runs reduce
inside the kernel. -/
def sortByKey {α : Type} (le : α → α → Bool) : List α → List α
  | [] => []
  | a :: t => insertSorted le a (sortByKey le t)

/-- Membership is preserved by `insertSorted`. -/
theorem mem_insertSorted {α : Type} (le : α → α → Bool) (a x : α) :
    ∀ l, x ∈ insertSorted le a l ↔ x = a ∨ x ∈ l := by
  intro l
  induction l with
  | nil => simp [insertSorted]
  | cons b t ih =>
    rw [insertSorted]
    by_cases h : le a b = true
    · rw [if_pos h]
      simp [List.mem_cons]
    · rw [if_neg h]
      simp only [List.mem_cons, ih]
      tauto

/-- Membership is preserved by `sortByKey`. -/
theorem mem_sortByKey {α : Type} (le : α → α → Bool) (x : α) :
    ∀ l, x ∈ sortByKey le l ↔ x ∈ l := by
  intro l
  induction l with
  | nil => simp [sortByKey]
  | cons b t ih =>
    rw [sortByKey, mem_insertSorted]
    simp [ih]

/-- `TemporalQueue`: pending `(transmit_time, fragment)` pairs plus the
configured `max_delay`; times are milliseconds on an abstract clock. -/
structure TemporalQueue where
  queue : List (Nat × DimensionalFragment)
  max_delay : Nat
  deriving DecidableEq, Repr

/-- The delay `TemporalQueue::enqueue` computes: `temporal * 10` ms plus the
`frequency % 100` ms jitter, clamped to `max_delay`. -/
def fragmentDelay (maxDelay : Nat) (f : DimensionalFragment) : Nat :=
  min (f.coordinate.temporal * 10 + f.coordinate.frequency % 100) maxDelay

/-- `TemporalQueue::enqueue` at clock value `now`: push the entry at the back,
then stably sort the whole queue by transmit time (`sort_by_key`). -/
def tq_enqueue (now : Nat) (q : TemporalQueue) (f : DimensionalFragment) :
    TemporalQueue :=
  let transmitTime := now + fragmentDelay q.max_delay f
  { q with
    queue := sortByKey (fun a b => decide (a.1 ≤ b.1))
      (q.queue ++ [(transmitTime, f)]) }

/-- The loop of `TemporalQueue::dequeue_ready`: pop entries from the front
while their transmit time has passed; stop at the first entry still in the
future.  Returns the popped entries and the remaining queue. -/
def tq_dequeue_ready_entries (now : Nat) :
    List (Nat × DimensionalFragment) →
      List (Nat × DimensionalFragment) × List (Nat × DimensionalFragment)
  | [] => ([], [])
  | (t, f) :: rest =>
    if t ≤ now then
      let p := tq_dequeue_ready_entries now rest
      ((t, f) :: p.1, p.2)
    else ([], (t, f) :: rest)

/-- `TemporalQueue::dequeue_ready`: the ready fragments (entry times dropped,
as in the source) and the queue that remains. -/
def tq_dequeue_ready (now : Nat) (q : TemporalQueue) :
    List DimensionalFragment × TemporalQueue :=
  let p := tq_dequeue_ready_entries now q.queue
  (p.1.map Prod.snd, { q with queue := p.2 })

/-- Fresh queue with a configured maximal delay (`TemporalQueue::new`). -/
def tq_new (maxDelay : Nat) : TemporalQueue :=
  ⟨[], maxDelay⟩

/-- A queue built by a trace of enqueue events, each an `(enqueue clock,
fragment)` pair. -/
def build_temporal_queue (maxDelay : Nat)
    (events : List (Nat × DimensionalFragment)) : TemporalQueue :=
  events.foldl (fun q ev => tq_enqueue ev.1 q ev.2) (tq_new maxDelay)

/-- Every entry the dequeue loop pops is ready (`transmit_time ≤ now`) and was
in the queue. -/
theorem tq_dequeue_ready_entries_sound (now : Nat) :
    ∀ (l : List (Nat × DimensionalFragment)) (e : Nat × DimensionalFragment),
      e ∈ (tq_dequeue_ready_entries now l).1 → e.1 ≤ now ∧ e ∈ l := by
  intro l
  induction l with
  | nil => intro e he; simp [tq_dequeue_ready_entries] at he
  | cons hd rest ih =>
    intro e he
    rw [tq_dequeue_ready_entries] at he
    by_cases hready : hd.1 ≤ now
    · simp only [hready, if_pos] at he
      rcases List.mem_cons.mp he with rfl | hmem
      · exact ⟨hready, List.mem_cons_self _ _⟩
      · obtain ⟨h1, h2⟩ := ih e hmem
        exact ⟨h1, List.mem_cons_of_mem _ h2⟩
    · simp [hready] at he

/-- Every entry of a queue built by a trace of enqueues is either an entry of
the starting queue or carries the transmit time `enqueue clock + delay` of
some event of the trace. -/
theorem mem_build_queue :
    ∀ (events : List (Nat × DimensionalFragment)) (q : TemporalQueue)
      (e : Nat × DimensionalFragment),
      e ∈ (events.foldl (fun q ev => tq_enqueue ev.1 q ev.2) q).queue →
      e ∈ q.queue ∨
        ∃ ev ∈ events, e = (ev.1 + fragmentDelay q.max_delay ev.2, ev.2) := by
  intro events
  induction events with
  | nil => intro q e he; exact Or.inl he
  | cons ev evs ih =>
    intro q e he
    simp only [List.foldl_cons] at he
    rcases ih (tq_enqueue ev.1 q ev.2) e he with hin | ⟨ev2, hmem, heq⟩
    · rw [tq_enqueue] at hin
      simp only [mem_sortByKey] at hin
      rcases List.mem_append.mp hin with h | h
      · exact Or.inl h
      · right
        refine ⟨ev, List.mem_cons_self _ _, ?_⟩
        simpa using h
    · right
      exact ⟨ev2, List.mem_cons_of_mem _ hmem, heq⟩

/-- Claim C7: the delay queue never releases a fragment early.  Every fragment
returned by `dequeue_ready` at clock value `t`, from a queue built by any
trace of enqueues, stems from an enqueue event whose scheduled release instant
`enqueue clock + min (temporal * 10 + frequency % 100) max_delay` is at or
before `t`. -/
theorem dequeue_never_early (maxDelay : Nat)
    (events : List (Nat × DimensionalFragment)) (t : Nat)
    (f : DimensionalFragment)
    (hf : f ∈ (tq_dequeue_ready t (build_temporal_queue maxDelay events)).1) :
    ∃ ev ∈ events, f = ev.2 ∧ ev.1 + fragmentDelay maxDelay ev.2 ≤ t := by
  rw [tq_dequeue_ready] at hf
  obtain ⟨e, he, hfe⟩ := List.mem_map.mp hf
  obtain ⟨hready, hqueue⟩ := tq_dequeue_ready_entries_sound t _ e he
  rcases mem_build_queue events (tq_new maxDelay) e hqueue with hnil | ⟨ev, hmem, heq⟩
  · simp [tq_new] at hnil
  · refine ⟨ev, hmem, ?_, ?_⟩
    · rw [heq] at hfe
      exact hfe.symm
    · rw [heq] at hready
      exact hready

/-- Witness for C7: a fragment enqueued at clock 100 whose computed delay is
`min (3 * 10 + 205 % 100) 5000 = 35` ms is released at clock 200, at or after
its scheduled instant 135. -/
theorem dequeue_never_early_witness :
    ∃ ev ∈ [(100, (⟨⟨0, 3, 205, 0, 0, 0, 0⟩, [1], 0, 0, 1, 0, 30⟩ :
        DimensionalFragment))],
      (⟨⟨0, 3, 205, 0, 0, 0, 0⟩, [1], 0, 0, 1, 0, 30⟩ : DimensionalFragment) =
          ev.2 ∧
        ev.1 + fragmentDelay 5000 ev.2 ≤ 200 :=
  dequeue_never_early 5000 _ 200 _ (by decide)

/-- The reassembly buffers: `HashMap<u64, Vec<DimensionalFragment>>` keyed by
`sequence_id` alone (the map carries no session component), modelled as an
insertion-ordered association list. -/
abbrev ReassemblyBuffers := List (Nat × List DimensionalFragment)

/-- Map lookup. -/
def bufLookup (buffers : ReassemblyBuffers) (seq : Nat) :
    Option (List DimensionalFragment) :=
  (buffers.find? fun e => e.1 == seq).map Prod.snd

/-- Map update: replace the bin of an existing key in place, or append a new
entry (the `entry(..).or_insert_with(Vec::new)` pattern). -/
def bufSet (buffers : ReassemblyBuffers) (seq : Nat)
    (bin : List DimensionalFragment) : ReassemblyBuffers :=
  match buffers with
  | [] => [(seq, bin)]
  | e :: rest => if e.1 = seq then (seq, bin) :: rest else e :: bufSet rest seq bin

/-- The retention predicate both `add_to_reassembly_buffer` and `cleanup`
apply: the fragment's age (`saturating_sub` on unix seconds, i.e. `Nat`
subtraction) is strictly below its ttl. -/
def fragment_fresh (now : Nat) (f : DimensionalFragment) : Bool :=
  decide (now - f.timestamp < f.ttl)

/-- `SigmaVault::add_to_reassembly_buffer` at unix time `now`: push the
fragment onto the bin of its `sequence_id` (creating the bin if absent), then
retain only fresh fragments — with no duplicate check of any kind. -/
def add_to_reassembly_buffer (now : Nat) (buffers : ReassemblyBuffers)
    (f : DimensionalFragment) : ReassemblyBuffers :=
  let bin := (bufLookup buffers f.sequence_id).getD []
  let bin2 := (bin ++ [f]).filter (fragment_fresh now)
  bufSet buffers f.sequence_id bin2

/-- The reassembly-buffer half of `SigmaVault::cleanup` at unix time `now`:
retain fresh fragments inside every bin, then drop bins that became empty. -/
def cleanup (now : Nat) (buffers : ReassemblyBuffers) : ReassemblyBuffers :=
  (buffers.map fun e => (e.1, e.2.filter (fragment_fresh now))).filter
    fun e => !e.2.isEmpty

/-- Outcome of one `gather_packets` call. `err` models the `Err` that the `?`
on `decrypt_fragment` propagates (carrying the buffers as mutated so far);
`panic` models the out-of-bounds index `fragments[0]` on an empty bin. -/
inductive GatherResult where
  | ok (packets : List (List Nat)) (buffers : ReassemblyBuffers)
  | err (buffers : ReassemblyBuffers)
  | panic
  deriving DecidableEq, Repr

/-- The reassembled packets an outcome delivers (`Ok(..)` payload; an `Err`
or a panic delivers none). -/
def GatherResult.packets : GatherResult → List (List Nat)
  | .ok pkts _ => pkts
  | .err _ => []
  | .panic => []

/-- One iteration of the first loop of `SigmaVault::gather_packets`: strip the
metadata skin (size recomputed from the fragment's coordinate) and decrypt.
`dec` is the AEAD decryption of the `CryptoDimensionHandler` cipher — an
external crate, hence an explicit parameter — applied to the stripped bytes,
the coordinate and the fragment's `sequence_id` (the nonce seed); `none`
is an AEAD failure. -/
def process_ready_fragment
    (dec : List Nat → DimensionalCoordinate → Nat → Option (List Nat))
    (f : DimensionalFragment) : Option DimensionalFragment :=
  let encrypted := strip_skin f.data f.coordinate
  (dec encrypted f.coordinate f.sequence_id).map fun d => { f with data := d }

/-- The first loop of `gather_packets` over the ready fragments: each one is
stripped, decrypted and added to the reassembly buffers; a decryption failure
aborts the whole call on the spot (the `?` operator), leaving the fragments
processed so far in the buffers and the rest of the list untouched.  The
Boolean records whether the loop aborted. -/
def accept_ready
    (dec : List Nat → DimensionalCoordinate → Nat → Option (List Nat))
    (now : Nat) :
    ReassemblyBuffers → List DimensionalFragment → ReassemblyBuffers × Bool
  | buffers, [] => (buffers, false)
  | buffers, f :: rest =>
    match process_ready_fragment dec f with
    | none => (buffers, true)
    | some df => accept_ready dec now (add_to_reassembly_buffer now buffers df) rest

/-- The completion loop of `gather_packets`: for every bin, read
`fragments[0].total_fragments` — `none` models the index panic if the bin is
empty — and, when the bin holds exactly that many fragments, sort them stably
by `fragment_id`, reassemble, emit the packet and drop the bin; otherwise the
bin is kept. -/
def completion_pass (overlapSize : Nat) :
    ReassemblyBuffers → Option (List (List Nat) × ReassemblyBuffers)
  | [] => some ([], [])
  | (seq, bin) :: rest =>
    match bin with
    | [] => none
    | f0 :: _ =>
      let completed : Option (List Nat) :=
        if bin.length = f0.total_fragments then
          reassemble_fragments overlapSize
            ((sortByKey (fun a b => decide (a.fragment_id ≤ b.fragment_id)) bin).map
              fun g => g.data)
        else none
      match completion_pass overlapSize rest, completed with
      | none, _ => none
      | some (pkts, kept), some pkt => some (pkt :: pkts, kept)
      | some (pkts, kept), none => some (pkts, (seq, bin) :: kept)

/-- `SigmaVault::gather_packets`, given the fragments the temporal queue
returned as ready: run the strip/decrypt/buffer loop, then the completion
loop.  A decryption failure surfaces as `err` (the `?` propagation); an empty
bin reached by the completion check surfaces as `panic`. -/
def gather_packets
    (dec : List Nat → DimensionalCoordinate → Nat → Option (List Nat))
    (overlapSize now : Nat) (buffers : ReassemblyBuffers)
    (ready : List DimensionalFragment) : GatherResult :=
  match accept_ready dec now buffers ready with
  | (buffers2, true) => .err buffers2
  | (buffers2, false) =>
    match completion_pass overlapSize buffers2 with
    | none => .panic
    | some (pkts, kept) => .ok pkts kept

/-- A cipher state whose decryption rejects every input, as AEAD
authentication does on tampered data. -/
def rejectingDec : List Nat → DimensionalCoordinate → Nat → Option (List Nat) :=
  fun _ _ _ => none

/-- A cipher state whose decryption accepts and returns the ciphertext bytes
unchanged; it stands for any successful AEAD decryption in scenarios where
only the control flow after decryption matters. -/
def identityDec : List Nat → DimensionalCoordinate → Nat → Option (List Nat) :=
  fun d _ _ => some d

/-- The all-zero coordinate (metadata strategy 0, padding length 0, trailer
28 serialized coordinate bytes). -/
def coordZero : DimensionalCoordinate := ⟨0, 0, 0, 0, 0, 0, 0⟩

/-- A 28-byte stand-in for the XOR-masked coordinate trailer: only its length
matters to the stripping code. -/
def trailerStub : List Nat := List.replicate 28 0

/-- Processing a list prefix that never fails commutes with processing the
rest: the first loop of `gather_packets` over `pre ++ rest` continues from the
buffers `pre` produced. -/
theorem accept_ready_append
    (dec : List Nat → DimensionalCoordinate → Nat → Option (List Nat))
    (now : Nat) :
    ∀ (pre : List DimensionalFragment) (buffers : ReassemblyBuffers)
      (rest : List DimensionalFragment),
      (accept_ready dec now buffers pre).2 = false →
      accept_ready dec now buffers (pre ++ rest) =
        accept_ready dec now (accept_ready dec now buffers pre).1 rest := by
  intro pre
  induction pre with
  | nil => intro buffers rest _; rfl
  | cons f pre2 ih =>
    intro buffers rest h
    rw [List.cons_append]
    cases hp : process_ready_fragment dec f with
    | none =>
      simp only [accept_ready, hp] at h
      exact absurd h (by simp)
    | some df =>
      simp only [accept_ready, hp] at h ⊢
      exact ih _ rest h

/-- Claim C2 (amended): when AEAD decryption of a ready fragment fails,
`gather_packets` does not drop just that fragment — the `?` operator
propagates the failure, the call returns `Err`, the failing fragment and
every fragment dequeued after it in the same call are discarded unprocessed,
and the buffers keep exactly the fragments processed before the failure. -/
theorem gather_aead_failure_surfaces_error
    (dec : List Nat → DimensionalCoordinate → Nat → Option (List Nat))
    (overlapSize now : Nat) (buffers : ReassemblyBuffers)
    (pre : List DimensionalFragment) (f : DimensionalFragment)
    (post : List DimensionalFragment)
    (hpre : (accept_ready dec now buffers pre).2 = false)
    (hfail : process_ready_fragment dec f = none) :
    gather_packets dec overlapSize now buffers (pre ++ f :: post) =
      GatherResult.err (accept_ready dec now buffers pre).1 := by
  rw [gather_packets, accept_ready_append dec now pre buffers (f :: post) hpre,
    accept_ready, hfail]

/-- The two fragments `gather_packets` dequeues in the C2 scenario. -/
def cexFragA : DimensionalFragment := ⟨coordZero, [1, 2, 3], 0, 0, 1, 0, 30⟩

/-- Second dequeued fragment of the C2 scenario (a different sequence). -/
def cexFragB : DimensionalFragment := ⟨coordZero, [4, 5, 6], 1, 0, 1, 0, 30⟩

/-- Claim C2 (counterexample): with a cipher state that rejects the first
dequeued fragment, `gather_packets` returns `Err` with untouched buffers —
not `Ok` — and the second dequeued fragment is never processed (no bin for
its sequence exists afterwards), refuting "the fragment alone is dropped and
the operation surfaces no error". -/
theorem gather_error_on_aead_failure_cex :
    gather_packets rejectingDec 50 0 [] [cexFragA, cexFragB] =
      GatherResult.err [] := by
  decide

/-- Witness for C2's amended theorem at concrete inputs. -/
theorem gather_aead_failure_surfaces_error_witness :
    gather_packets rejectingDec 50 7 [] [cexFragA, cexFragB] =
      GatherResult.err [] :=
  gather_aead_failure_surfaces_error rejectingDec 50 7 [] [] cexFragA
    [cexFragB] rfl rfl

/-- Looking up the key just set returns the bin just stored. -/
theorem bufLookup_bufSet (seq : Nat) (bin : List DimensionalFragment) :
    ∀ buffers : ReassemblyBuffers,
      bufLookup (bufSet buffers seq bin) seq = some bin := by
  intro buffers
  induction buffers with
  | nil => simp [bufSet, bufLookup, List.find?]
  | cons e rest ih =>
    rw [bufSet]
    by_cases h : e.1 = seq
    · rw [if_pos h]
      simp [bufLookup, List.find?]
    · rw [if_neg h]
      have hbeq : (e.1 == seq) = false := by
        simp [h]
      rw [bufLookup, List.find?_cons, hbeq]
      exact ih

/-- Setting one key leaves every other key's lookup unchanged. -/
theorem bufLookup_bufSet_ne (seq s : Nat) (bin : List DimensionalFragment)
    (hne : s ≠ seq) :
    ∀ buffers : ReassemblyBuffers,
      bufLookup (bufSet buffers seq bin) s = bufLookup buffers s := by
  intro buffers
  have hbeq : (seq == s) = false := by
    simp
    omega
  induction buffers with
  | nil =>
    simp [bufSet, bufLookup, List.find?, hbeq]
  | cons e rest ih =>
    rw [bufSet]
    by_cases h : e.1 = seq
    · rw [if_pos h]
      rw [bufLookup, List.find?_cons, hbeq, bufLookup, List.find?_cons]
      have : (e.1 == s) = false := by
        simp
        omega
      rw [this]
    · rw [if_neg h]
      rw [bufLookup, List.find?_cons, bufLookup, List.find?_cons]
      cases hes : e.1 == s with
      | true => rfl
      | false => exact ih

/-- Claim C4 (amended): `add_to_reassembly_buffer` performs no duplicate
check whatsoever — as long as nothing is expired, the stored bin is the old
bin with the fragment appended, even when the very same
`(sequence_id, fragment_index)` is already present. -/
theorem duplicate_fragment_appended (now : Nat) (buffers : ReassemblyBuffers)
    (f : DimensionalFragment)
    (hfresh : ∀ g ∈ (bufLookup buffers f.sequence_id).getD [] ++ [f],
      fragment_fresh now g = true) :
    bufLookup (add_to_reassembly_buffer now buffers f) f.sequence_id =
      some ((bufLookup buffers f.sequence_id).getD [] ++ [f]) := by
  rw [add_to_reassembly_buffer]
  rw [List.filter_eq_self.mpr hfresh]
  exact bufLookup_bufSet _ _ _

/-- The fragment whose duplicate arrival the C4 scenario feeds in twice:
fragment 0 of a packet that was split into 2 fragments; its sibling
(fragment 1) never arrives. -/
def dupFrag : DimensionalFragment :=
  ⟨coordZero, [1, 2, 3] ++ trailerStub, 0, 0, 2, 0, 30⟩

/-- `dupFrag` after skin stripping and decryption. -/
def dupFragDecrypted : DimensionalFragment := ⟨coordZero, [1, 2, 3], 0, 0, 2, 0, 30⟩

/-- Witness for C4's amended theorem: a bin already holding the fragment gets
a second copy appended. -/
theorem duplicate_fragment_appended_witness :
    bufLookup
        (add_to_reassembly_buffer 0 [(0, [dupFragDecrypted])] dupFragDecrypted)
        0 =
      some [dupFragDecrypted, dupFragDecrypted] :=
  duplicate_fragment_appended 0 [(0, [dupFragDecrypted])] dupFragDecrypted
    (by decide)

/-- Claim C4 (counterexample): feeding the same fragment twice is not
idempotent.  The duplicate is appended, so the bin of a 2-fragment packet
reaches `total_fragments` with two copies of fragment 0 and `gather_packets`
emits the packet `[1, 2, 3]` — built from half the original data, fragment 1
never having arrived — instead of discarding the duplicate and emitting
nothing. -/
theorem duplicate_fragment_cex :
    add_to_reassembly_buffer 0 [(0, [dupFragDecrypted])] dupFragDecrypted =
        [(0, [dupFragDecrypted, dupFragDecrypted])] ∧
      gather_packets identityDec 50 0 [] [dupFrag, dupFrag] =
        GatherResult.ok [[1, 2, 3]] [] := by
  exact ⟨by decide, by decide⟩

/-- Fragment 0 of session B's packet (sequence 0 of session B). -/
def sessBFrag0 : DimensionalFragment :=
  ⟨coordZero, [1, 2, 3] ++ trailerStub, 0, 0, 2, 0, 30⟩

/-- Fragment 1 of session B's packet. -/
def sessBFrag1 : DimensionalFragment :=
  ⟨coordZero, [4, 5, 6] ++ trailerStub, 0, 1, 2, 0, 30⟩

/-- Fragment 0 of session A's packet — a different session, but the same
`sequence_id` 0, since every fresh session starts its packet counter at 0. -/
def sessAFrag : DimensionalFragment :=
  ⟨coordZero, [9, 9, 9] ++ trailerStub, 0, 0, 2, 0, 30⟩

/-- Claim C5 (counterexample): reassembly bins are keyed by `sequence_id`
alone, so scattering on session A observably alters session B's outputs.
Without A's fragment, B's two fragments reassemble to `[1,2,3,4,5,6]`; with
A's fragment (same sequence 0) fed first, all three fragments share one bin,
the completeness check never fires, and B's packet is never delivered. -/
theorem session_interference_cex :
    (gather_packets identityDec 50 0 [] [sessBFrag0, sessBFrag1]).packets =
        [[1, 2, 3, 4, 5, 6]] ∧
      (gather_packets identityDec 50 0 []
          [sessAFrag, sessBFrag0, sessBFrag1]).packets = [] := by
  exact ⟨by decide, by decide⟩

/-- Claim C5 (amended): the only isolation the buffers provide is by
`sequence_id` — `add_to_reassembly_buffer` leaves every bin of a different
`sequence_id` untouched; session identity is not part of the key, so
fragments of distinct sessions with the same `sequence_id` share a bin (see
the counterexample). -/
theorem bins_keyed_by_sequence_frame (now : Nat) (buffers : ReassemblyBuffers)
    (f : DimensionalFragment) (s : Nat) (hs : s ≠ f.sequence_id) :
    bufLookup (add_to_reassembly_buffer now buffers f) s = bufLookup buffers s := by
  rw [add_to_reassembly_buffer]
  exact bufLookup_bufSet_ne f.sequence_id s _ hs buffers

/-- Witness for C5's amended theorem: adding session A's fragment (sequence
0) leaves the bin of sequence 1 unchanged. -/
theorem bins_keyed_by_sequence_frame_witness :
    bufLookup (add_to_reassembly_buffer 0 [(1, [sessBFrag1])] sessAFrag) 1 =
      bufLookup [(1, [sessBFrag1])] 1 :=
  bins_keyed_by_sequence_frame 0 [(1, [sessBFrag1])] sessAFrag 1 (by decide)

/-- A fragment that is already beyond its ttl at unix time 100. -/
def staleFrag : DimensionalFragment := ⟨coordZero, [1], 0, 0, 2, 0, 30⟩

/-- A fragment still fresh at unix time 100. -/
def freshKeptFrag : DimensionalFragment := ⟨coordZero, [2], 0, 1, 2, 95, 30⟩

/-- Claim C6 (counterexample): `cleanup` does not drop a bin whole when one
of its fragments is expired — it prunes per fragment.  A bin holding one
expired and one fresh fragment survives `cleanup` in partial form, keeping
only the fresh fragment, instead of being absent. -/
theorem cleanup_partial_bin_cex :
    cleanup 100 [(0, [staleFrag, freshKeptFrag])] = [(0, [freshKeptFrag])] ∧
      cleanup 100 [(0, [staleFrag, freshKeptFrag])] ≠ [] := by
  exact ⟨by decide, by decide⟩

/-- Claim C6 (amended): after `cleanup` at time `now`, no remaining bin
contains any expired fragment — expired fragments are removed one by one —
and every remaining bin is non-empty; but a bin with both expired and fresh
fragments is kept in partial form rather than dropped whole (see the
counterexample). -/
theorem cleanup_no_expired_remain (now : Nat) (buffers : ReassemblyBuffers)
    (e : Nat × List DimensionalFragment) (he : e ∈ cleanup now buffers) :
    e.2 ≠ [] ∧ ∀ f ∈ e.2, now - f.timestamp < f.ttl := by
  rw [cleanup] at he
  obtain ⟨hmem, hne⟩ := List.mem_filter.mp he
  constructor
  · intro hnil
    rw [hnil] at hne
    simp at hne
  · obtain ⟨e0, _, rfl⟩ := List.mem_map.mp hmem
    intro f hf
    have hfm := List.mem_filter.mp hf
    exact of_decide_eq_true hfm.2

/-- Witness for C6's amended theorem at a concrete surviving bin. -/
theorem cleanup_no_expired_remain_witness :
    [freshKeptFrag] ≠ [] ∧
      (100 : Nat) - freshKeptFrag.timestamp < freshKeptFrag.ttl :=
  ⟨(cleanup_no_expired_remain 100 [(0, [freshKeptFrag])] (0, [freshKeptFrag])
      (by decide)).1,
    (cleanup_no_expired_remain 100 [(0, [freshKeptFrag])] (0, [freshKeptFrag])
      (by decide)).2 freshKeptFrag (by decide)⟩

/-- A fragment that is already expired when it reaches
`add_to_reassembly_buffer` (timestamp 0, ttl 30 s, processed at unix time
100). -/
def expiredFrag : DimensionalFragment := ⟨coordZero, [1, 2, 3], 0, 0, 1, 0, 30⟩

/-- Claim C10: refuted — the TTL retention inside `add_to_reassembly_buffer`
can empty a freshly created bin while leaving its map entry in place, and the
completeness check of `gather_packets` then reads `fragments[0]` of an empty
vector, an out-of-bounds index (a panic, modelled by `GatherResult.panic`).
An expired fragment processed at unix time 100 exhibits exactly this. -/
theorem empty_bin_inspection_panics :
    add_to_reassembly_buffer 100 [] expiredFrag = [(0, [])] ∧
      gather_packets identityDec 50 100 [] [expiredFrag] =
        GatherResult.panic := by
  exact ⟨by decide, by decide⟩

/-- Total length of the slice sizes the fragmentation loop assigns to the
next `n` fragment indices starting at `i`: each gets `baseSize`, plus one
extra byte for indices below `rem`. -/
def sumSizes (baseSize rem : Nat) : Nat → Nat → Nat
  | 0, _ => 0
  | n + 1, i => (baseSize + if i < rem then 1 else 0) + sumSizes baseSize rem n (i + 1)

/-- Closed form of `sumSizes`. -/
theorem sumSizes_eq (baseSize rem : Nat) :
    ∀ n i, sumSizes baseSize rem n i =
      n * baseSize + (min (i + n) rem - min i rem) := by
  intro n
  induction n with
  | zero => intro i; simp [sumSizes]
  | succ n ih =>
    intro i
    rw [sumSizes, ih (i + 1), Nat.succ_mul]
    by_cases h : i < rem
    · rw [if_pos h]
      omega
    · rw [if_neg h]
      omega

/-- One full pass of the loop covers the packet exactly. -/
theorem sumSizes_total (L k : Nat) (hk : 0 < k) :
    sumSizes (L / k) (L % k) k 0 = L := by
  rw [sumSizes_eq]
  have hlt : L % k < k := Nat.mod_lt _ hk
  have h1 : min (0 + k) (L % k) = L % k := Nat.min_eq_right (by omega)
  have h2 : min 0 (L % k) = 0 := Nat.min_eq_left (Nat.zero_le _)
  rw [h1, h2, Nat.sub_zero]
  exact Nat.div_add_mod L k

/-- When the whole packet fits inside the overlap, every fragment taken from
index 1 on is the entire packet. -/
theorem fragmentSteps_all_packet (ov : Nat) (p : List Nat) (b r : Nat)
    (hov : p.length ≤ ov) :
    ∀ n i start, 1 ≤ i → start + sumSizes b r n i = p.length →
      fragmentSteps ov p b r n i start = List.replicate n p := by
  intro n
  induction n with
  | zero => intro i start _ _; rfl
  | succ n ih =>
    intro i start hi hsum
    rw [sumSizes] at hsum
    simp only [fragmentSteps]
    have h1 : (if 0 < i then ov else 0) = ov := if_pos (by omega)
    rw [h1]
    have hstart : start ≤ p.length := by omega
    have h2 : (if ov ≤ start then start - ov else 0) = 0 := by
      split <;> omega
    rw [h2]
    have h3 : min (b + (if i < r then 1 else 0) + ov) (p.length - 0) =
        p.length := by
      omega
    rw [h3, List.drop_zero, List.take_length, List.replicate_succ]
    congr 1
    exact ih (i + 1) (start + (b + if i < r then 1 else 0)) (by omega) (by omega)

/-- A `take` of a list is a Boolean prefix of it. -/
theorem take_isPrefixOf (p : List Nat) (s : Nat) :
    (p.take s).isPrefixOf p = true := by
  rw [ List.isPrefixOf_iff_prefix]
  exact List.take_prefix s p

/-- Merging copies of the running result is the identity once the result is
the whole packet and fits inside the overlap window. -/
theorem reassembleFold_self (ov : Nat) (p : List Nat) (hov : p.length ≤ ov) :
    ∀ js : List (List Nat), (∀ x ∈ js, x = p) → reassembleFold ov p js = p := by
  intro js
  induction js with
  | nil => intro _; rfl
  | cons x js ih =>
    intro hmem
    have hx : x = p := hmem x (List.mem_cons_self _ _)
    rw [hx]
    simp only [reassembleFold]
    have h0 : p.length - ov = 0 := by omega
    rw [h0, List.drop_zero]
    have hpp : p.isPrefixOf p = true := by
      rw [ List.isPrefixOf_iff_prefix]
    rw [if_pos hpp, List.drop_length, List.append_nil]
    exact ih fun y hy => hmem y (List.mem_cons_of_mem _ hy)

/-- The first merge step: a `take` of the packet as running result, followed
by the whole packet, advances the running result to the whole packet. -/
theorem reassembleFold_take_step (ov : Nat) (p : List Nat) (s : Nat)
    (hs : s ≤ p.length) (hov : p.length ≤ ov) (js : List (List Nat)) :
    reassembleFold ov (p.take s) (p :: js) = reassembleFold ov p js := by
  simp only [reassembleFold]
  have hlen : (p.take s).length = s := by
    rw [List.length_take]
    omega
  rw [hlen]
  have h0 : s - ov = 0 := by omega
  rw [h0, List.drop_zero]
  rw [if_pos (take_isPrefixOf p s), hlen, List.take_append_drop]

/-- The head step of the fragmentation loop (index 0, offset 0): no overlap
is prepended and the slice is the first `size` bytes. -/
theorem fragmentSteps_head (ov : Nat) (p : List Nat) (b r n : Nat) :
    fragmentSteps ov p b r (n + 1) 0 0 =
      (p.take (min (b + if 0 < r then 1 else 0) p.length)) ::
        fragmentSteps ov p b r n 1 (b + if 0 < r then 1 else 0) := by
  rw [fragmentSteps]
  simp

/-- Round trip for a single-fragment split (`fragment_count = 1`): the one
slice is the whole packet. -/
theorem roundtrip_single (p : List Nat) :
    reassemble_fragments 50
      (fragmentSteps 50 p (p.length / 1) (p.length % 1) 1 0 0) = some p := by
  simp [fragmentSteps, reassemble_fragments, reassembleFold, Nat.div_one,
    Nat.mod_one]

/-- Round trip for a packet no longer than the 50-byte overlap, any fragment
count: every slice after the first degenerates to the whole packet and the
merge loop recovers the packet. -/
theorem roundtrip_small (p : List Nat) (k : Nat) (hk : 0 < k)
    (hsmall : p.length ≤ 50) :
    reassemble_fragments 50
      (fragmentSteps 50 p (p.length / k) (p.length % k) k 0 0) = some p := by
  obtain ⟨m, rfl⟩ : ∃ m, k = m + 1 := ⟨k - 1, by omega⟩
  cases m with
  | zero => exact roundtrip_single p
  | succ n =>
    have htot := sumSizes_total p.length (n + 1 + 1) (by omega)
    rw [sumSizes, Nat.zero_add] at htot
    have hs0 : p.length / (n + 1 + 1) +
        (if 0 < p.length % (n + 1 + 1) then 1 else 0) ≤ p.length := by omega
    rw [fragmentSteps_head,
      fragmentSteps_all_packet 50 p _ _ hsmall (n + 1) 1 _ (by omega) (by omega),
      Nat.min_eq_left hs0]
    simp only [reassemble_fragments, List.replicate_succ]
    rw [reassembleFold_take_step 50 p _ hs0 hsmall,
      reassembleFold_self 50 p hsmall _ fun x hx => (List.mem_replicate.mp hx).2]

/-- Claim C3 (amended): the fragmentation round-trip
`reassemble_fragments (fragment_packet P C) = Ok P` holds when the coordinate
yields a single fragment (`C.fragmentation % 8 = 0`, any packet length) or
when the packet is no longer than the 50-byte overlap (any fragment count);
for longer packets split into several fragments it fails in general (see the
counterexample). -/
theorem fragmentation_roundtrip_amended (packet : List Nat)
    (c : DimensionalCoordinate) (hlen : 1 ≤ packet.length)
    (h : c.fragmentation % 8 = 0 ∨ packet.length ≤ 50) :
    reassemble_fragments 50 (fragment_packet 50 packet c) = some packet := by
  rcases h with hk | hsmall
  · simp only [fragment_packet, hk]
    exact roundtrip_single packet
  · simp only [fragment_packet]
    exact roundtrip_small packet (c.fragmentation % 8 + 1) (by omega) hsmall

/-- Witness for C3's amended theorem: a 3-byte packet split into 3 fragments
round-trips. -/
theorem fragmentation_roundtrip_amended_witness :
    reassemble_fragments 50
        (fragment_packet 50 [7, 8, 9] ⟨0, 0, 0, 0, 2, 0, 0⟩) =
      some [7, 8, 9] :=
  fragmentation_roundtrip_amended [7, 8, 9] ⟨0, 0, 0, 0, 2, 0, 0⟩ (by decide)
    (Or.inr (by decide))

/-- The coordinate of the C3 counterexample: `fragmentation % 8 = 2`, i.e.
three fragments. -/
def cexCoordC3 : DimensionalCoordinate := ⟨0, 0, 0, 0, 2, 0, 0⟩

/-- Claim C3 (counterexample): the round-trip fails for the 60-byte packet
`0,1,...,59` split into 3 fragments.  The second slice starts at offset 20,
below the 50-byte overlap, so its window is clipped to the whole packet; the
merge loop then appends the third slice verbatim and returns 120 bytes, not
the packet. -/
theorem fragmentation_roundtrip_cex :
    reassemble_fragments 50 (fragment_packet 50 (List.range 60) cexCoordC3) ≠
      some (List.range 60) := by
  decide
